import Mathlib

/-!
# G.711 µ-law codec (`Module 2/G_711/G_711.c`)

Shallow embedding of the companding core of `G_711.c`: the segment search
`search`, the decoder `Snack_Mulaw2Lin` and the encoder `Snack_Lin2Mulaw`,
and of the two conversion modes of `main`, which wrap the converted samples
in a 44-byte WAV header.

Machine integers are mathematical integers with explicit wrapping:

* `short` is a 16-bit two's-complement value, `toShort` is the conversion to it;
* `unsigned char` is an 8-bit value, `toUChar` is the conversion to it;
* `int` (the type every operand is promoted to) is 32 bits wide; the bitwise
  operators act on the 32-bit two's-complement pattern.
-/

namespace G711

/-! ## Machine integers -/

/-- Conversion to `short`: reduction modulo `2^16` into `[-32768, 32767]`. -/
def toShort (x : Int) : Int := (x + 32768) % 65536 - 32768

/-- Conversion to `unsigned char`: reduction modulo `2^8` into `[0, 255]`. -/
def toUChar (x : Int) : Int := x % 256

/-- Bit pattern of an `int` as a natural number below `2^32`. -/
def bits32 (x : Int) : Nat := (x % 4294967296).toNat

/-- Value of a 32-bit pattern read as a two's-complement `int`. -/
def ofBits32 (n : Nat) : Int :=
  if n % 4294967296 < 2147483648 then (n % 4294967296 : Nat)
  else ((n % 4294967296 : Nat) : Int) - 4294967296

/-- C operator `&` on `int` operands. -/
def band (a b : Int) : Int := ofBits32 (bits32 a &&& bits32 b)

/-- C operator `|` on `int` operands. -/
def bor (a b : Int) : Int := ofBits32 (bits32 a ||| bits32 b)

/-- C operator `^` on `int` operands. -/
def bxor (a b : Int) : Int := ofBits32 (bits32 a ^^^ bits32 b)

/-- C operator `~` on an `int` operand. -/
def bnot (a : Int) : Int := ofBits32 (bits32 a ^^^ 4294967295)

/-- C operator `<<` on an `int` left operand (result wrapped to 32 bits). -/
def shl (a : Int) (n : Nat) : Int := ofBits32 (bits32 a <<< n)

/-- C operator `>>` on an `int` left operand: arithmetic shift, rounding
towards minus infinity. -/
def shr (a : Int) (n : Nat) : Int := a >>> n

/-! ## Constants and tables -/

/-- Sign bit of a code byte. -/
def SIGN_BIT : Int := 0x80
/-- Quantization field mask. -/
def QUANT_MASK : Int := 0xf
/-- Left shift for the segment number. -/
def SEG_SHIFT : Nat := 4
/-- Segment field mask. -/
def SEG_MASK : Int := 0x70
/-- Bias for the linear code. -/
def BIAS : Int := 0x84
/-- Ceiling of the magnitude. -/
def CLIP : Int := 8159

/-- Upper ends of the eight µ-law segments. -/
def seg_uend : List Int := [0x3F, 0x7F, 0xFF, 0x1FF, 0x3FF, 0x7FF, 0xFFF, 0x1FFF]

/-! ## `search` -/

/-- Loop of `search`.  `fuel` is the number of iterations left (`size - i`),
`i` the loop counter and the list the part of the array that the pointer
`table` has not walked over yet.  Reading past the end of the array has no
result. -/
def searchLoop (val size : Int) : Nat → Int → List Int → Option Int
  | 0, _, _ => some size
  | _ + 1, _, [] => none
  | fuel + 1, i, t :: rest =>
    if val ≤ t then some i else searchLoop val size fuel (toShort (i + 1)) rest

/-- Function `search(val, table, size)`. -/
def search (val : Int) (table : List Int) (size : Int) : Option Int :=
  searchLoop val size size.toNat 0 table

/-! ## Decoder -/

/-- Function `Snack_Mulaw2Lin(u_val)`. -/
def Snack_Mulaw2Lin (u_val : Int) : Int :=
  let u_val := toUChar (bnot u_val)
  let t := toShort (shl (band u_val QUANT_MASK) 3 + BIAS)
  let t := toShort (shl t (bits32 (band u_val SEG_MASK) >>> SEG_SHIFT))
  toShort (if band u_val SIGN_BIT ≠ 0 then BIAS - t else t - BIAS)

/-! ## Encoder -/

/-- Lines 126-129 of `Snack_Lin2Mulaw`: the pre-scale.  The product
`pcm_val * 2.0` is exact in double precision.  Its conversion to `short` is
modelled as keeping the low 16 bits: compiled code converts the double to
`int`, which holds every product, and narrows it (for a product outside the
`short` range ISO C leaves the result undefined).  The two comparisons that
follow act on a value that is already a `short`. -/
def prescale (pcm_val : Int) : Int :=
  let pcm_val := toShort (pcm_val * 2)
  let pcm_val := if pcm_val > 32767 then 32767 else pcm_val
  let pcm_val := if pcm_val < -32768 then -32768 else pcm_val
  pcm_val

/-- Lines 131-140 of `Snack_Lin2Mulaw`: sign/magnitude split, clip and bias.
Returns the biased magnitude (the final `pcm_val`) and `mask`. -/
def signMagnitude (pcm_val : Int) : Int × Int :=
  let pcm_val := toShort (shr pcm_val 2)
  let sm : Int × Int :=
    if pcm_val < 0 then (toShort (-pcm_val), 0x7F) else (pcm_val, 0xFF)
  let pcm_val := sm.1
  let mask := sm.2
  let pcm_val := if pcm_val > CLIP then CLIP else pcm_val
  let pcm_val := toShort (pcm_val + shr BIAS 2)
  (pcm_val, mask)

/-- Lines 145-154 of `Snack_Lin2Mulaw`: assembly of the code byte from the
biased magnitude, the mask and the segment number. -/
def assemble (pcm_val mask seg : Int) : Int :=
  if seg ≥ 8 then
    toUChar (bxor 0x7F mask)
  else
    let uval := toUChar (bor (toUChar (shl seg 4)) (band (shr pcm_val (seg + 1).toNat) 0xF))
    toUChar (bxor uval mask)

/-- Lines 131-154 of `Snack_Lin2Mulaw`: sign/magnitude split, clip, bias,
segment search and assembly of the code byte, run on the pre-scaled value. -/
def compand (pcm_val : Int) : Option Int :=
  let sm := signMagnitude pcm_val
  match search sm.1 seg_uend 8 with
  | none => none
  | some seg => some (assemble sm.1 sm.2 seg)

/-- Function `Snack_Lin2Mulaw(pcm_val)`. -/
def Snack_Lin2Mulaw (pcm_val : Int) : Option Int :=
  compand (prescale pcm_val)

/-- Segment number of a code byte: bits 6-4 of its complement,
`(~c & 0x70) >> 4`. -/
def segmentOf (c : Int) : Nat :=
  bits32 (band (toUChar (bnot c)) SEG_MASK) >>> SEG_SHIFT

/-! ## WAV container and mode dispatch (`main`)

Files are byte sequences.  Objects wider than a byte are written in
little-endian byte order, the order of the WAV container. -/

/-- Conversion to `uint32_t`: reduction modulo `2^32`. -/
def toUInt32 (x : Int) : Int := x % 4294967296

/-- Code of a character constant. -/
def ch (c : Char) : Int := c.toNat

/-- Array `wav_header_u_law_to_pcm`. -/
def wav_header_u_law_to_pcm : List Int :=
  [ch 'R', ch 'I', ch 'F', ch 'F',
   0, 0, 0, 0,
   ch 'W', ch 'A', ch 'V', ch 'E',
   ch 'f', ch 'm', ch 't', ch ' ',
   16, 0, 0, 0,
   1, 0,
   1, 0,
   0x40, 0x1F, 0x00, 0x00,
   0x80, 0x3E, 0x00, 0x00,
   2, 0,
   16, 0,
   ch 'd', ch 'a', ch 't', ch 'a',
   0, 0, 0, 0]

/-- Array `wav_header_pcm_to_u_law`. -/
def wav_header_pcm_to_u_law : List Int :=
  [ch 'R', ch 'I', ch 'F', ch 'F',
   0, 0, 0, 0,
   ch 'W', ch 'A', ch 'V', ch 'E',
   ch 'f', ch 'm', ch 't', ch ' ',
   16, 0, 0, 0,
   7, 0,
   1, 0,
   0x40, 0x1F, 0x00, 0x00,
   0x40, 0x1F, 0x00, 0x00,
   1, 0,
   8, 0,
   ch 'd', ch 'a', ch 't', ch 'a',
   0, 0, 0, 0]

/-- An output file: the bytes of the file and the file position. -/
structure OutFile where
  /-- Contents of the file. -/
  bytes : List Int
  /-- File position. -/
  pos : Nat

/-- Call `fseek(f, offset, SEEK_SET)`. -/
def fseekSet (f : OutFile) (offset : Nat) : OutFile :=
  ⟨f.bytes, offset⟩

/-- Call `fwrite` of the bytes `data` at the file position: bytes already
there are overwritten, the file grows when the write runs past its end (a gap
before the position reads as zeros). -/
def fwrite (f : OutFile) (data : List Int) : OutFile :=
  ⟨f.bytes.take f.pos ++ List.replicate (f.pos - f.bytes.length) 0 ++ data
      ++ f.bytes.drop (f.pos + data.length),
    f.pos + data.length⟩

/-- Object representation of a `short`. -/
def bytesOfShort (x : Int) : List Int :=
  [toUChar x, toUChar (shr x 8)]

/-- Object representation of a `uint32_t`. -/
def bytesOfUInt32 (x : Int) : List Int :=
  [toUChar x, toUChar (shr x 8), toUChar (shr x 16), toUChar (shr x 24)]

/-- The 32-bit little-endian value held by four bytes of a file at `offset`. -/
def uint32At (bytes : List Int) (offset : Nat) : Int :=
  bytes.getD offset 0 + 256 * bytes.getD (offset + 1) 0
    + 65536 * bytes.getD (offset + 2) 0 + 16777216 * bytes.getD (offset + 3) 0

/-- Read loop of mode 0 (lines 214-223) over the bytes of the input file that
follow the file position: each byte is decoded and the sample is written. -/
def decodeLoop : List Int → OutFile → OutFile
  | [], output => output
  | input_buffer_data :: rest, output =>
    let output_data := Snack_Mulaw2Lin input_buffer_data
    decodeLoop rest (fwrite output (bytesOfShort output_data))

/-- Read loop of mode 1 (lines 265-274) over the bytes of the input file that
follow the file position: each byte is encoded and the code is written. -/
def encodeLoop : List Int → OutFile → Option OutFile
  | [], output => some output
  | input_buffer_data :: rest, output =>
    (Snack_Lin2Mulaw input_buffer_data).bind fun output_buffer_data =>
      encodeLoop rest (fwrite output [output_buffer_data])

/-- Mode 0 of `main` (lines 184-234) with both files open: the contents of
the output file for the contents `input` of the input file. -/
def mainDecode (input : List Int) : List Int :=
  let output : OutFile := ⟨[], 0⟩
  let output := fseekSet output 0
  let output := fwrite output wav_header_u_law_to_pcm
  let inputFileSize := toUInt32 input.length
  let size_without_header := toUInt32 (inputFileSize - 44)
  let size_without_header := toUInt32 (size_without_header * 2)
  let chunk_size := toUInt32 (size_without_header + 36)
  let output := decodeLoop (input.drop 44) output
  let output := fseekSet output 4
  let output := fwrite output (bytesOfUInt32 chunk_size)
  let output := fseekSet output 40
  let output := fwrite output (bytesOfUInt32 size_without_header)
  output.bytes

/-- Mode 1 of `main` (lines 235-285) with both files open: the contents of
the output file for the contents `input` of the input file. -/
def mainEncode (input : List Int) : Option (List Int) :=
  let output : OutFile := ⟨[], 0⟩
  let output := fseekSet output 0
  let output := fwrite output wav_header_pcm_to_u_law
  let inputFileSize := toUInt32 input.length
  let size_without_header := toUInt32 (inputFileSize - 44)
  let size_without_header := toUInt32 (size_without_header / 2)
  let chunk_size := toUInt32 (size_without_header + 36)
  match encodeLoop (input.drop 44) output with
  | none => none
  | some output =>
    let output := fseekSet output 4
    let output := fwrite output (bytesOfUInt32 chunk_size)
    let output := fseekSet output 40
    let output := fwrite output (bytesOfUInt32 size_without_header)
    some output.bytes

/-! ## Machine-integer lemmas -/

theorem toShort_of_mem {x : Int} (h1 : -32768 ≤ x) (h2 : x ≤ 32767) : toShort x = x := by
  unfold toShort
  omega

/-! ## The scan of `search` -/

theorem searchLoop_scan (val size : Int) :
    ∀ (table : List Int) (fuel i : Nat), table.length = fuel → i + fuel ≤ 32767 →
      ∃ r : Nat, r ≤ fuel ∧
        searchLoop val size fuel (i : Int) table
          = some (if r = fuel then size else ((i + r : Nat) : Int)) ∧
        (∀ j, j < r → ∃ t, table[j]? = some t ∧ t < val) ∧
        (r < fuel → ∃ t, table[r]? = some t ∧ val ≤ t) := by
  intro table
  induction table with
  | nil =>
    intro fuel i hlen _
    simp at hlen
    subst hlen
    exact ⟨0, le_refl _, by simp [searchLoop], by simp, by simp⟩
  | cons t rest ih =>
    intro fuel i hlen hi
    cases fuel with
    | zero => simp at hlen
    | succ fuel =>
      simp at hlen
      by_cases hv : val ≤ t
      · refine ⟨0, Nat.zero_le _, ?_, by simp, ?_⟩
        · simp [searchLoop, hv]
        · intro _
          exact ⟨t, by simp, hv⟩
      · have hs : toShort ((i : Int) + 1) = ((i + 1 : Nat) : Int) := by
          rw [toShort_of_mem (by omega) (by omega)]
          push_cast
          rfl
        obtain ⟨r, hr, hres, hlt, hle⟩ := ih fuel (i + 1) hlen (by omega)
        refine ⟨r + 1, by omega, ?_, ?_, ?_⟩
        · simp only [searchLoop, hv, if_false, hs, hres]
          by_cases hrf : r = fuel
          · simp [hrf]
          · have : ¬ (r + 1 = fuel + 1) := by omega
            simp only [hrf, this, if_false]
            have e : i + 1 + r = i + (r + 1) := by omega
            rw [e]
        · intro j hj
          cases j with
          | zero => exact ⟨t, by simp, by omega⟩
          | succ j =>
            obtain ⟨u, hu, huv⟩ := hlt j (by omega)
            exact ⟨u, by simpa using hu, huv⟩
        · intro hr1
          obtain ⟨u, hu, huv⟩ := hle (by omega)
          exact ⟨u, by simpa using hu, huv⟩

/-! ## Bit operations on the ranges the codec uses -/

theorem shr_eq_div (x : Int) (n : Nat) : shr x n = x / 2 ^ n := by
  unfold shr
  rw [Int.shiftRight_eq_div_pow]
  norm_cast

theorem assemble_bits (k y : Int) (hk0 : 0 ≤ k) (hk7 : k ≤ 7) (hy0 : 16 ≤ y) (hy1 : y ≤ 31) :
    toUChar (bor (toUChar (shl k 4)) (band y 0xF)) = 16 * k + (y - 16) := by
  interval_cases k <;> interval_cases y <;> decide

theorem xor_mask_pos (u : Int) (h0 : 0 ≤ u) (h1 : u ≤ 127) :
    toUChar (bxor u 0xFF) = 255 - u := by
  interval_cases u <;> decide

theorem xor_mask_neg (u : Int) (h0 : 0 ≤ u) (h1 : u ≤ 127) :
    toUChar (bxor u 0x7F) = 127 - u := by
  interval_cases u <;> decide

/-! ## Closed form of the decoder on each half of the code space -/

theorem decode_pos (k : Nat) (e : Int) (hk : k ≤ 7) (he0 : 0 ≤ e) (he1 : e ≤ 15) :
    Snack_Mulaw2Lin (255 - (16 * (k : Int) + e)) = (8 * e + 132) * 2 ^ k - 132 ∧
      segmentOf (255 - (16 * (k : Int) + e)) = k := by
  interval_cases k <;> interval_cases e <;> decide

theorem decode_neg (k : Nat) (e : Int) (hk : k ≤ 7) (he0 : 0 ≤ e) (he1 : e ≤ 15) :
    Snack_Mulaw2Lin (127 - (16 * (k : Int) + e)) = 132 - (8 * e + 132) * 2 ^ k ∧
      segmentOf (127 - (16 * (k : Int) + e)) = k := by
  interval_cases k <;> interval_cases e <;> decide

/-! ## The stages of the encoder -/

theorem search_seg_uend (v : Int) :
    search v seg_uend 8 = some (if v ≤ 63 then 0 else if v ≤ 127 then 1 else if v ≤ 255 then 2
      else if v ≤ 511 then 3 else if v ≤ 1023 then 4 else if v ≤ 2047 then 5
      else if v ≤ 4095 then 6 else if v ≤ 8191 then 7 else 8) := by
  have h8 : (8 : Int).toNat = 8 := rfl
  unfold search seg_uend
  rw [h8]
  simp only [searchLoop]
  split_ifs <;> rfl

theorem signMagnitude_nonneg (x : Int) (h1 : 0 ≤ x) (h2 : x ≤ 32767) :
    signMagnitude x = (min (x / 4) 8159 + 33, 0xFF) := by
  have hq : toShort (shr x 2) = x / 4 := by
    rw [shr_eq_div, toShort_of_mem (by norm_num; omega) (by norm_num; omega)]
    norm_num
  have hb : shr BIAS 2 = 33 := by decide
  have hn : ¬ (x / 4 < 0) := by omega
  unfold signMagnitude
  simp only [hq, hb, hn, if_false, CLIP]
  by_cases hc : x / 4 > 8159
  · simp only [hc, if_true]
    rw [min_eq_right (by omega)]
    rfl
  · simp only [hc, if_false]
    rw [min_eq_left (by omega), toShort_of_mem (by omega) (by omega)]

theorem signMagnitude_neg (x : Int) (h1 : -32768 ≤ x) (h2 : x < 0) :
    signMagnitude x = (min (-(x / 4)) 8159 + 33, 0x7F) := by
  have hq : toShort (shr x 2) = x / 4 := by
    rw [shr_eq_div, toShort_of_mem (by norm_num; omega) (by norm_num; omega)]
    norm_num
  have hb : shr BIAS 2 = 33 := by decide
  have hn : x / 4 < 0 := by omega
  have hm : toShort (-(x / 4)) = -(x / 4) := toShort_of_mem (by omega) (by omega)
  unfold signMagnitude
  simp only [hq, hb, hn, if_true, CLIP, hm]
  by_cases hc : -(x / 4) > 8159
  · simp only [hc, if_true]
    rw [min_eq_right (by omega)]
    rfl
  · simp only [hc, if_false]
    rw [min_eq_left (by omega), toShort_of_mem (by omega) (by omega)]

theorem assemble_in_segment (v mask : Int) (k : Nat) (hk : k ≤ 7)
    (h1 : 2 ^ (k + 5) ≤ v) (h2 : v < 2 ^ (k + 6)) :
    assemble v mask (k : Int)
        = toUChar (bxor (16 * (k : Int) + (v / 2 ^ (k + 1) - 16)) mask) ∧
      0 ≤ v / 2 ^ (k + 1) - 16 ∧ v / 2 ^ (k + 1) - 16 ≤ 15 := by
  have hlt : ¬ ((k : Int) ≥ 8) := by omega
  have hn : ((k : Int) + 1).toNat = k + 1 := by omega
  unfold assemble
  simp only [hlt, if_false, hn, shr_eq_div]
  interval_cases k
  all_goals
    norm_num at h1 h2 ⊢
    refine ⟨?_, by omega, by omega⟩
    rw [assemble_bits _ _ (by norm_num) (by norm_num) (by omega) (by omega)]
    congr 2 <;> omega

theorem search_in_segment (v : Int) (h1 : 33 ≤ v) (h2 : v ≤ 8191) :
    ∃ k : Nat, k ≤ 7 ∧ search v seg_uend 8 = some (k : Int) ∧
      2 ^ (k + 5) ≤ v ∧ v < 2 ^ (k + 6) := by
  rw [search_seg_uend]
  split_ifs
  · exact ⟨0, by norm_num, rfl, by norm_num; omega, by norm_num; omega⟩
  · exact ⟨1, by norm_num, rfl, by norm_num; omega, by norm_num; omega⟩
  · exact ⟨2, by norm_num, rfl, by norm_num; omega, by norm_num; omega⟩
  · exact ⟨3, by norm_num, rfl, by norm_num; omega, by norm_num; omega⟩
  · exact ⟨4, by norm_num, rfl, by norm_num; omega, by norm_num; omega⟩
  · exact ⟨5, by norm_num, rfl, by norm_num; omega, by norm_num; omega⟩
  · exact ⟨6, by norm_num, rfl, by norm_num; omega, by norm_num; omega⟩
  · exact ⟨7, by norm_num, rfl, by norm_num; omega, by norm_num; omega⟩

theorem quant_bounds (v : Int) (k : Nat) :
    (16 + (v / 2 ^ (k + 1) - 16)) * 2 ^ (k + 1) ≤ v ∧
      v < (17 + (v / 2 ^ (k + 1) - 16)) * 2 ^ (k + 1) := by
  have hp : (0 : Int) < 2 ^ (k + 1) := by positivity
  have hd := Int.ediv_add_emod v (2 ^ (k + 1))
  have hm0 := Int.emod_nonneg v (ne_of_gt hp)
  have hm1 := Int.emod_lt_of_pos v hp
  constructor
  · nlinarith
  · nlinarith

theorem compand_nonneg (x : Int) (h1 : 0 ≤ x) (h2 : x ≤ 32767) :
    ∃ (k : Nat) (e : Int), k ≤ 7 ∧ 0 ≤ e ∧ e ≤ 15 ∧
      compand x = some (255 - (16 * (k : Int) + e)) ∧
      (x / 4 < 8159 →
        (16 + e) * 2 ^ (k + 1) ≤ x / 4 + 33 ∧ x / 4 + 33 < (17 + e) * 2 ^ (k + 1)) ∧
      (8159 ≤ x / 4 → k = 7 ∧ e = 15) := by
  unfold compand
  simp only [signMagnitude_nonneg x h1 h2]
  by_cases hc : 8159 ≤ x / 4
  · refine ⟨7, 15, le_refl _, by norm_num, le_refl _, ?_, by omega, fun _ => ⟨rfl, rfl⟩⟩
    rw [min_eq_right hc]
    decide
  · have hm : min (x / 4) 8159 = x / 4 := min_eq_left (by omega)
    rw [hm]
    obtain ⟨k, hk, hs, hlo, hhi⟩ := search_in_segment (x / 4 + 33) (by omega) (by omega)
    obtain ⟨ha, he0, he1⟩ := assemble_in_segment (x / 4 + 33) 0xFF k hk hlo hhi
    refine ⟨k, (x / 4 + 33) / 2 ^ (k + 1) - 16, hk, he0, he1, ?_, fun _ => quant_bounds _ k,
      fun h => absurd h hc⟩
    rw [hs]
    simp only [ha]
    rw [xor_mask_pos _ (by omega) (by omega)]

theorem compand_neg (x : Int) (h1 : -32768 ≤ x) (h2 : x < 0) :
    ∃ (k : Nat) (e : Int), k ≤ 7 ∧ 0 ≤ e ∧ e ≤ 15 ∧
      compand x = some (127 - (16 * (k : Int) + e)) ∧
      (-(x / 4) < 8159 →
        (16 + e) * 2 ^ (k + 1) ≤ -(x / 4) + 33 ∧ -(x / 4) + 33 < (17 + e) * 2 ^ (k + 1)) ∧
      (8159 ≤ -(x / 4) → k = 7 ∧ e = 15) := by
  unfold compand
  simp only [signMagnitude_neg x h1 h2]
  by_cases hc : 8159 ≤ -(x / 4)
  · refine ⟨7, 15, le_refl _, by norm_num, le_refl _, ?_, by omega, fun _ => ⟨rfl, rfl⟩⟩
    rw [min_eq_right hc]
    decide
  · have hm : min (-(x / 4)) 8159 = -(x / 4) := min_eq_left (by omega)
    rw [hm]
    obtain ⟨k, hk, hs, hlo, hhi⟩ := search_in_segment (-(x / 4) + 33) (by omega) (by omega)
    obtain ⟨ha, he0, he1⟩ := assemble_in_segment (-(x / 4) + 33) 0x7F k hk hlo hhi
    refine ⟨k, (-(x / 4) + 33) / 2 ^ (k + 1) - 16, hk, he0, he1, ?_, fun _ => quant_bounds _ k,
      fun h => absurd h hc⟩
    rw [hs]
    simp only [ha]
    rw [xor_mask_neg _ (by omega) (by omega)]

/-! ## The pre-scale -/

theorem prescale_eq_wrap (s : Int) : prescale s = toShort (s * 2) := by
  have h1 : ¬ (toShort (s * 2) > 32767) := by unfold toShort; omega
  have h2 : ¬ (toShort (s * 2) < -32768) := by unfold toShort; omega
  unfold prescale
  simp only [h1, h2, if_false]

theorem prescale_of_mem (s : Int) (h1 : -16384 ≤ s) (h2 : s ≤ 16383) : prescale s = s * 2 := by
  rw [prescale_eq_wrap, toShort_of_mem (by omega) (by omega)]

/-! ## Quantization cells

A biased magnitude `v` of segment `k` with quantization field `e` lies in the
cell `[(16 + e) * 2^(k+1), (17 + e) * 2^(k+1))`. -/

theorem cell_monotone (k1 k2 : Nat) (e1 e2 v1 v2 : Int) (hk1 : k1 ≤ 7) (hk2 : k2 ≤ 7)
    (he1 : 0 ≤ e1 ∧ e1 ≤ 15) (he2 : 0 ≤ e2 ∧ e2 ≤ 15)
    (hc1 : (16 + e1) * 2 ^ (k1 + 1) ≤ v1 ∧ v1 < (17 + e1) * 2 ^ (k1 + 1))
    (hc2 : (16 + e2) * 2 ^ (k2 + 1) ≤ v2 ∧ v2 < (17 + e2) * 2 ^ (k2 + 1))
    (hv : v1 ≤ v2) :
    (8 * e1 + 132) * 2 ^ k1 ≤ (8 * e2 + 132) * 2 ^ k2 ∧ k1 ≤ k2 := by
  interval_cases k1 <;> interval_cases k2 <;> norm_num at hc1 hc2 ⊢ <;> omega

theorem cell_le_top (k : Nat) (e : Int) (hk : k ≤ 7) (he : 0 ≤ e ∧ e ≤ 15) :
    (8 * e + 132) * 2 ^ k ≤ 32256 ∧ 132 ≤ (8 * e + 132) * 2 ^ k := by
  interval_cases k <;> norm_num <;> omega

/-! ## The round trip on samples whose double fits in a `short` -/

theorem sign_bit_clear_iff (c : Int) (h0 : 0 ≤ c) (h1 : c ≤ 255) :
    band c SIGN_BIT = 0 ↔ c < 128 := by
  interval_cases c <;> decide

theorem encode_nonneg (s : Int) (h1 : 0 ≤ s) (h2 : s ≤ 16383) :
    ∃ (k : Nat) (e : Int), k ≤ 7 ∧ (0 ≤ e ∧ e ≤ 15) ∧
      Snack_Lin2Mulaw s = some (255 - (16 * (k : Int) + e)) ∧
      Snack_Mulaw2Lin (255 - (16 * (k : Int) + e)) = (8 * e + 132) * 2 ^ k - 132 ∧
      segmentOf (255 - (16 * (k : Int) + e)) = k ∧
      (s / 2 < 8159 →
        (16 + e) * 2 ^ (k + 1) ≤ s / 2 + 33 ∧ s / 2 + 33 < (17 + e) * 2 ^ (k + 1)) ∧
      (8159 ≤ s / 2 → k = 7 ∧ e = 15) := by
  obtain ⟨k, e, hk, he0, he1, hc, hin, hclip⟩ := compand_nonneg (s * 2) (by omega) (by omega)
  obtain ⟨hd, hseg⟩ := decode_pos k e hk he0 he1
  have hq : s * 2 / 4 = s / 2 := by omega
  rw [hq] at hin hclip
  refine ⟨k, e, hk, ⟨he0, he1⟩, ?_, hd, hseg, hin, hclip⟩
  unfold Snack_Lin2Mulaw
  rw [prescale_of_mem s (by omega) h2, hc]

theorem encode_neg (s : Int) (h1 : -16384 ≤ s) (h2 : s < 0) :
    ∃ (k : Nat) (e : Int), k ≤ 7 ∧ (0 ≤ e ∧ e ≤ 15) ∧
      Snack_Lin2Mulaw s = some (127 - (16 * (k : Int) + e)) ∧
      Snack_Mulaw2Lin (127 - (16 * (k : Int) + e)) = 132 - (8 * e + 132) * 2 ^ k ∧
      segmentOf (127 - (16 * (k : Int) + e)) = k ∧
      (-(s / 2) < 8159 →
        (16 + e) * 2 ^ (k + 1) ≤ -(s / 2) + 33 ∧ -(s / 2) + 33 < (17 + e) * 2 ^ (k + 1)) ∧
      (8159 ≤ -(s / 2) → k = 7 ∧ e = 15) := by
  obtain ⟨k, e, hk, he0, he1, hc, hin, hclip⟩ := compand_neg (s * 2) (by omega) (by omega)
  obtain ⟨hd, hseg⟩ := decode_neg k e hk he0 he1
  have hq : s * 2 / 4 = s / 2 := by omega
  rw [hq] at hin hclip
  refine ⟨k, e, hk, ⟨he0, he1⟩, ?_, hd, hseg, hin, hclip⟩
  unfold Snack_Lin2Mulaw
  rw [prescale_of_mem s h1 (by omega), hc]

/-- Sign preservation holds for the samples whose double fits in a `short`:
bit 7 of the code is clear exactly when the sample is negative, and the
decoded value is negative exactly when the sample is. -/
theorem sign_preserved_of_mem (s : Int) (h1 : -16384 ≤ s) (h2 : s ≤ 16383) :
    ∃ c, Snack_Lin2Mulaw s = some c ∧ (band c SIGN_BIT = 0 ↔ s < 0) ∧
      (Snack_Mulaw2Lin c < 0 ↔ s < 0) := by
  by_cases hneg : s < 0
  · obtain ⟨k, e, hk, he, hc, hd, -, hin, hclip⟩ := encode_neg s h1 hneg
    have hk2 : (k : Int) ≤ 7 := by exact_mod_cast hk
    refine ⟨_, hc, ?_, ?_⟩
    · rw [sign_bit_clear_iff _ (by omega) (by omega)]
      constructor
      · intro _
        exact hneg
      · intro _
        omega
    · rw [hd]
      have hneg2 : 132 - (8 * e + 132) * 2 ^ k < 0 := by
        by_cases hcl : 8159 ≤ -(s / 2)
        · obtain ⟨rfl, rfl⟩ := hclip hcl
          norm_num
        · have hin2 := hin (by omega)
          interval_cases k <;> norm_num at hin2 ⊢ <;> omega
      constructor
      · intro _
        exact hneg
      · intro _
        exact hneg2
  · obtain ⟨k, e, hk, he, hc, hd, -, -, -⟩ := encode_nonneg s (by omega) h2
    have hk2 : (k : Int) ≤ 7 := by exact_mod_cast hk
    have htop := cell_le_top k e hk he
    refine ⟨_, hc, ?_, ?_⟩
    · rw [sign_bit_clear_iff _ (by omega) (by omega)]
      constructor
      · intro h
        omega
      · intro h
        exact absurd h hneg
    · rw [hd]
      constructor
      · intro h
        omega
      · intro h
        exact absurd h hneg

/-- The round trip is monotonic on the samples whose double fits in a
`short`. -/
theorem roundtrip_monotone_of_mem (s1 s2 : Int) (h1 : -16384 ≤ s1) (h12 : s1 ≤ s2)
    (h2 : s2 ≤ 16383) :
    ∃ c1 c2, Snack_Lin2Mulaw s1 = some c1 ∧ Snack_Lin2Mulaw s2 = some c2 ∧
      Snack_Mulaw2Lin c1 ≤ Snack_Mulaw2Lin c2 := by
  by_cases hn2 : s2 < 0
  · obtain ⟨k1, e1, hk1, he1, hc1, hd1, -, hin1, hclip1⟩ := encode_neg s1 h1 (by omega)
    obtain ⟨k2, e2, hk2, he2, hc2, hd2, -, hin2, hclip2⟩ := encode_neg s2 (by omega) hn2
    refine ⟨_, _, hc1, hc2, ?_⟩
    rw [hd1, hd2]
    by_cases hcl : 8159 ≤ -(s1 / 2)
    · obtain ⟨rfl, rfl⟩ := hclip1 hcl
      have htop := cell_le_top k2 e2 hk2 he2
      norm_num
      omega
    · have hm := cell_monotone k2 k1 e2 e1 _ _ hk2 hk1 he2 he1 (hin2 (by omega))
        (hin1 (by omega)) (by omega)
      omega
  · by_cases hn1 : s1 < 0
    · obtain ⟨k1, e1, hk1, he1, hc1, hd1, -, -, -⟩ := encode_neg s1 h1 hn1
      obtain ⟨k2, e2, hk2, he2, hc2, hd2, -, -, -⟩ := encode_nonneg s2 (by omega) h2
      refine ⟨_, _, hc1, hc2, ?_⟩
      rw [hd1, hd2]
      have ht1 := cell_le_top k1 e1 hk1 he1
      have ht2 := cell_le_top k2 e2 hk2 he2
      omega
    · obtain ⟨k1, e1, hk1, he1, hc1, hd1, -, hin1, hclip1⟩ := encode_nonneg s1 (by omega) (by omega)
      obtain ⟨k2, e2, hk2, he2, hc2, hd2, -, hin2, hclip2⟩ := encode_nonneg s2 (by omega) h2
      refine ⟨_, _, hc1, hc2, ?_⟩
      rw [hd1, hd2]
      by_cases hcl : 8159 ≤ s2 / 2
      · obtain ⟨rfl, rfl⟩ := hclip2 hcl
        have htop := cell_le_top k1 e1 hk1 he1
        norm_num
        omega
      · have hm := cell_monotone k1 k2 e1 e2 _ _ hk1 hk2 he1 he2 (hin1 (by omega))
          (hin2 (by omega)) (by omega)
        omega

/-- Segment numbers are monotonic on the non-negative samples whose double
fits in a `short`. -/
theorem segment_monotone_of_mem (s1 s2 : Int) (h1 : 0 ≤ s1) (h12 : s1 ≤ s2)
    (h2 : s2 ≤ 16383) :
    ∃ c1 c2, Snack_Lin2Mulaw s1 = some c1 ∧ Snack_Lin2Mulaw s2 = some c2 ∧
      segmentOf c1 ≤ segmentOf c2 := by
  obtain ⟨k1, e1, hk1, he1, hc1, -, hg1, hin1, hclip1⟩ := encode_nonneg s1 h1 (by omega)
  obtain ⟨k2, e2, hk2, he2, hc2, -, hg2, hin2, hclip2⟩ := encode_nonneg s2 (by omega) h2
  refine ⟨_, _, hc1, hc2, ?_⟩
  rw [hg1, hg2]
  by_cases hcl : 8159 ≤ s2 / 2
  · obtain ⟨rfl, rfl⟩ := hclip2 hcl
    exact hk1
  · exact (cell_monotone k1 k2 e1 e2 _ _ hk1 hk2 he1 he2 (hin1 (by omega))
      (hin2 (by omega)) (by omega)).2

/-! ## Totality of the encoder -/

theorem toShort_mem (x : Int) : -32768 ≤ toShort x ∧ toShort x ≤ 32767 := by
  unfold toShort
  omega

theorem Snack_Lin2Mulaw_total (s : Int) :
    ∃ c, Snack_Lin2Mulaw s = some c ∧ 0 ≤ c ∧ c ≤ 255 := by
  obtain ⟨h1, h2⟩ := toShort_mem (s * 2)
  unfold Snack_Lin2Mulaw
  rw [prescale_eq_wrap]
  by_cases hneg : toShort (s * 2) < 0
  · obtain ⟨k, e, hk, he0, he1, hc, -, -⟩ := compand_neg _ h1 hneg
    have hk2 : (k : Int) ≤ 7 := by exact_mod_cast hk
    exact ⟨_, hc, by omega, by omega⟩
  · obtain ⟨k, e, hk, he0, he1, hc, -, -⟩ := compand_nonneg _ (by omega) h2
    have hk2 : (k : Int) ≤ 7 := by exact_mod_cast hk
    exact ⟨_, hc, by omega, by omega⟩

theorem encode_byte (v : Int) (h0 : 0 ≤ v) (h1 : v ≤ 255) :
    ∃ c, Snack_Lin2Mulaw v = some c ∧ 0xDB ≤ c ∧ c ≤ 0xFF ∧ band c SIGN_BIT ≠ 0 ∧
      segmentOf c ≤ 2 := by
  obtain ⟨k, e, hk, he, hc, -, hseg, hin, -⟩ := encode_nonneg v h0 (by omega)
  have hin2 := hin (by omega)
  have hk2 : k ≤ 2 := by
    interval_cases k <;> norm_num at hin2 ⊢ <;> omega
  have hke : 16 * (k : Int) + e ≤ 36 := by
    interval_cases k <;> norm_num at hin2 ⊢ <;> omega
  have hk0 : (0 : Int) ≤ k := by exact_mod_cast Nat.zero_le k
  refine ⟨_, hc, by omega, by omega, ?_, by omega⟩
  intro hb
  have := (sign_bit_clear_iff _ (by omega) (by omega)).1 hb
  omega

/-! ## The output file of the two modes -/

theorem fwrite_at_end (f : OutFile) (data : List Int) (h : f.pos = f.bytes.length) :
    fwrite f data = ⟨f.bytes ++ data, f.bytes.length + data.length⟩ := by
  unfold fwrite
  rw [h]
  simp

theorem decodeLoop_appends (input : List Int) :
    ∀ output : OutFile, output.pos = output.bytes.length →
      decodeLoop input output
        = ⟨output.bytes ++ input.flatMap (fun b => bytesOfShort (Snack_Mulaw2Lin b)),
            output.bytes.length + 2 * input.length⟩ := by
  induction input with
  | nil =>
    intro output h
    cases output
    simp_all [decodeLoop]
  | cons b rest ih =>
    intro output h
    simp only [decodeLoop]
    rw [fwrite_at_end output _ h, ih _ (by simp)]
    simp [bytesOfShort, List.flatMap_cons]
    omega

theorem getD_append_offset (pre rest : List Int) (i : Nat) :
    (pre ++ rest).getD (pre.length + i) 0 = rest.getD i 0 := by
  rw [List.getD_append_right _ _ _ _ (by omega)]
  congr 1
  omega

theorem uint32At_bytes (x : Int) (h0 : 0 ≤ x) (h1 : x < 4294967296) (pre post : List Int)
    (n : Nat) (hn : pre.length = n) :
    uint32At (pre ++ (bytesOfUInt32 x ++ post)) n = x := by
  subst hn
  unfold uint32At
  have e0 := getD_append_offset pre (bytesOfUInt32 x ++ post) 0
  rw [Nat.add_zero] at e0
  rw [e0, getD_append_offset, getD_append_offset, getD_append_offset]
  unfold bytesOfUInt32 toUChar
  simp only [shr_eq_div, List.cons_append, List.getD_cons_zero, List.getD_cons_succ]
  norm_num
  omega

theorem fwrite_header (header : List Int) :
    fwrite (fseekSet ⟨[], 0⟩ 0) header = ⟨header, header.length⟩ := by
  simp [fwrite, fseekSet]

theorem fwrite_inside (bytes data : List Int) (pos : Nat)
    (h : pos + data.length ≤ bytes.length) :
    fwrite ⟨bytes, pos⟩ data
      = ⟨bytes.take pos ++ (data ++ bytes.drop (pos + data.length)), pos + data.length⟩ := by
  have h0 : pos - bytes.length = 0 := by omega
  simp [fwrite, h0]

/-- Patching of the two size fields (lines 227-231 and 278-282) in a file
that starts with a 44-byte header. -/
theorem patch_sizes (header data : List Int) (chunk_size size_without_header : Int)
    (hh : header.length = 44) :
    (fwrite (fseekSet (fwrite (fseekSet ⟨header ++ data, header.length + data.length⟩ 4)
        (bytesOfUInt32 chunk_size)) 40) (bytesOfUInt32 size_without_header)).bytes
      = header.take 4 ++ (bytesOfUInt32 chunk_size ++ ((header.drop 8).take 32
          ++ (bytesOfUInt32 size_without_header ++ data))) := by
  have hl : ∀ x, (bytesOfUInt32 x).length = 4 := fun _ => rfl
  have e1 : fwrite (fseekSet ⟨header ++ data, header.length + data.length⟩ 4)
      (bytesOfUInt32 chunk_size)
        = ⟨header.take 4 ++ (bytesOfUInt32 chunk_size ++ (header.drop 8 ++ data)), 8⟩ := by
    simp only [fseekSet]
    rw [fwrite_inside _ _ _ (by simp [hl, hh]; omega)]
    simp only [hl]
    rw [List.take_append_of_le_length (by omega), List.drop_append_of_le_length (by omega)]
  rw [e1]
  simp only [fseekSet]
  rw [fwrite_inside _ _ _ (by simp [hl, hh]; omega)]
  simp only [hl]
  have e2 : header.take 4 ++ (bytesOfUInt32 chunk_size ++ (header.drop 8 ++ data))
      = (header.take 4 ++ (bytesOfUInt32 chunk_size ++ header.drop 8)) ++ data := by
    simp
  have hp : (header.take 4 ++ (bytesOfUInt32 chunk_size ++ header.drop 8)).length = 44 := by
    simp [hl, hh]
  rw [e2, List.take_append_of_le_length (by omega), List.drop_append_of_le_length (by omega)]
  have e3 : List.drop (40 + 4) (header.take 4 ++ (bytesOfUInt32 chunk_size ++ header.drop 8))
      = [] := by
    apply List.drop_eq_nil_of_le
    omega
  have e4 : List.take 40 (header.take 4 ++ (bytesOfUInt32 chunk_size ++ header.drop 8))
      = header.take 4 ++ (bytesOfUInt32 chunk_size ++ (header.drop 8).take 32) := by
    have a1 : (header.take 4).length = 4 := by simp [hh]
    have t1 : List.take 40 (header.take 4 ++ (bytesOfUInt32 chunk_size ++ header.drop 8))
        = header.take 4 ++ List.take 36 (bytesOfUInt32 chunk_size ++ header.drop 8) := by
      rw [List.take_append_eq_append_take, a1]
      rw [List.take_of_length_le (by omega)]
    have t2 : List.take 36 (bytesOfUInt32 chunk_size ++ header.drop 8)
        = bytesOfUInt32 chunk_size ++ List.take 32 (header.drop 8) := by
      rw [List.take_append_eq_append_take, hl]
      rw [List.take_of_length_le (by simp [hl])]
    rw [t1, t2]
  rw [e3, e4]
  simp

theorem mainDecode_eq (input : List Int) (hL : 44 ≤ input.length)
    (hfit : 2 * (input.length - 44) + 36 < 4294967296) :
    mainDecode input
      = wav_header_u_law_to_pcm.take 4
        ++ (bytesOfUInt32 ((2 * (input.length - 44) + 36 : Nat) : Int)
        ++ ((wav_header_u_law_to_pcm.drop 8).take 32
        ++ (bytesOfUInt32 ((2 * (input.length - 44) : Nat) : Int)
        ++ (input.drop 44).flatMap (fun b => bytesOfShort (Snack_Mulaw2Lin b))))) := by
  have hs : toUInt32 (toUInt32 (toUInt32 (input.length : Int) - 44) * 2)
      = ((2 * (input.length - 44) : Nat) : Int) := by
    unfold toUInt32
    omega
  have hc : toUInt32 (((2 * (input.length - 44) : Nat) : Int) + 36)
      = ((2 * (input.length - 44) + 36 : Nat) : Int) := by
    unfold toUInt32
    omega
  unfold mainDecode
  simp only [hs, hc]
  rw [fwrite_header, decodeLoop_appends _ _ rfl]
  exact patch_sizes _ _ _ _ rfl

theorem bytesOfUInt32_length (x : Int) : (bytesOfUInt32 x).length = 4 := rfl

theorem bytesOfShort_flatMap_length (f : Int → Int) (l : List Int) :
    (l.flatMap (fun b => bytesOfShort (f b))).length = 2 * l.length := by
  induction l with
  | nil => rfl
  | cons b rest ih =>
    simp only [List.flatMap_cons, List.length_append, ih, List.length_cons]
    simp [bytesOfShort]
    omega

theorem encodeLoop_appends (input : List Int) :
    ∀ output : OutFile, output.pos = output.bytes.length →
      encodeLoop input output
        = some ⟨output.bytes ++ input.map (fun b => (Snack_Lin2Mulaw b).getD 0),
            output.bytes.length + input.length⟩ := by
  induction input with
  | nil =>
    intro output h
    obtain ⟨bytes, pos⟩ := output
    have h2 : pos = bytes.length := h
    subst h2
    rw [encodeLoop, List.map_nil, List.append_nil, List.length_nil, Nat.add_zero]
  | cons b rest ih =>
    intro output h
    obtain ⟨c, hc, -, -⟩ := Snack_Lin2Mulaw_total b
    have hg : (Snack_Lin2Mulaw b).getD 0 = c := by
      rw [hc]
      rfl
    have hl : (output.bytes ++ [c]).length = output.bytes.length + 1 := by
      rw [List.length_append]
      rfl
    rw [encodeLoop, hc, Option.some_bind]
    rw [fwrite_at_end output _ h, ih _ hl.symm, List.map_cons, hg, hl, List.append_assoc,
      List.singleton_append, List.length_cons, Nat.add_assoc, Nat.add_comm 1]

theorem mainEncode_eq (input : List Int) :
    mainEncode input
      = some (wav_header_pcm_to_u_law.take 4
        ++ (bytesOfUInt32 (toUInt32 (toUInt32 (toUInt32 (toUInt32 input.length - 44) / 2) + 36))
        ++ ((wav_header_pcm_to_u_law.drop 8).take 32
        ++ (bytesOfUInt32 (toUInt32 (toUInt32 (toUInt32 input.length - 44) / 2))
        ++ (input.drop 44).map (fun b => (Snack_Lin2Mulaw b).getD 0))))) := by
  unfold mainEncode
  simp only []
  rw [fwrite_header, encodeLoop_appends _ _ rfl]
  simp only [List.length_map]
  rw [← List.length_map (input.drop 44) (fun b => (Snack_Lin2Mulaw b).getD 0)]
  rw [patch_sizes wav_header_pcm_to_u_law _ _ _ rfl]

/-- In mode 1 an input file of `L ≥ 44` bytes (`L < 2^32`) yields a file of
`44 + (L - 44)` bytes whose field at offset 40 holds `(L - 44) / 2`. -/
theorem mainEncode_sizes (input : List Int) (hL : 44 ≤ input.length)
    (hfit : input.length < 4294967296) :
    ∃ out, mainEncode input = some out ∧ out.length = 44 + (input.length - 44) ∧
      (out.drop 44).length = input.length - 44 ∧
      uint32At out 40 = (((input.length - 44) / 2 : Nat) : Int) ∧
      uint32At out 4 = (((input.length - 44) / 2 + 36 : Nat) : Int) := by
  have hh : wav_header_pcm_to_u_law.length = 44 := rfl
  have h4 : (wav_header_pcm_to_u_law.take 4).length = 4 := rfl
  have h32 : ((wav_header_pcm_to_u_law.drop 8).take 32).length = 32 := rfl
  have hs : toUInt32 (toUInt32 (toUInt32 (input.length : Int) - 44) / 2)
      = (((input.length - 44) / 2 : Nat) : Int) := by
    unfold toUInt32
    omega
  have hc : toUInt32 ((((input.length - 44) / 2 : Nat) : Int) + 36)
      = (((input.length - 44) / 2 + 36 : Nat) : Int) := by
    unfold toUInt32
    omega
  refine ⟨_, mainEncode_eq input, ?_, ?_, ?_, ?_⟩
  · simp only [List.length_append, h4, h32, bytesOfUInt32_length, List.length_map,
      List.length_drop]
    omega
  · rw [← List.append_assoc, ← List.append_assoc, ← List.append_assoc,
      List.drop_left' (by simp [h4, h32, bytesOfUInt32_length])]
    simp
  · rw [hs, ← List.append_assoc, ← List.append_assoc]
    exact uint32At_bytes _ (by omega) (by omega) _ _ 40
      (by simp [h4, h32, bytesOfUInt32_length])
  · rw [hs, hc]
    exact uint32At_bytes _ (by omega) (by omega) _ _ 4 h4

/-! ## The encoder on halved decoder outputs -/

theorem encode_half_decode (b : Int) (h0 : 0 ≤ b) (h1 : b ≤ 255) :
    Snack_Lin2Mulaw (Snack_Mulaw2Lin b / 2) = some (if b = 0x7F then 0xFF else b) := by
  interval_cases b <;> decide

/-! ## Claims -/


/-- C1, as stated, fails: at `s = 1000` the code is `0xBF`, in segment 4,
which decodes to 1980, and `|1980 - 1000| = 980` is more than
`2^(4+3) = 128`. -/
theorem roundtrip_step_counterexample :
    Snack_Lin2Mulaw 1000 = some 0xBF ∧ segmentOf 0xBF = 4 ∧ Snack_Mulaw2Lin 0xBF = 1980 ∧
      ¬ (|Snack_Mulaw2Lin 0xBF - 1000| ≤ (2 : Int) ^ (segmentOf 0xBF + 3)) := by
  have hs : segmentOf 0xBF = 4 := by decide
  have hd : Snack_Mulaw2Lin 0xBF = 1980 := by decide
  refine ⟨by decide, hs, hd, ?_⟩
  rw [hs, hd]
  norm_num

/-- C1, amended: for every sample `s` with `-16384 ≤ s ≤ 16383` the encoder
returns a code `c`, and the decoded value of `c` is within `2^(k+3)` of the
doubled sample `2*s`, where `k` is the segment number of `c`. -/
theorem roundtrip_tracks_doubled (s : Int) (h1 : -16384 ≤ s) (h2 : s ≤ 16383) :
    ∃ c, Snack_Lin2Mulaw s = some c ∧
      |Snack_Mulaw2Lin c - 2 * s| ≤ (2 : Int) ^ (segmentOf c + 3) := by
  unfold Snack_Lin2Mulaw
  rw [prescale_of_mem s h1 h2]
  by_cases hneg : s < 0
  · obtain ⟨k, e, hk, he0, he1, hc, hin, hclip⟩ := compand_neg (s * 2) (by omega) (by omega)
    obtain ⟨hd, hseg⟩ := decode_neg k e hk he0 he1
    refine ⟨_, hc, ?_⟩
    rw [hd, hseg, abs_le]
    by_cases hcl : 8159 ≤ -(s * 2 / 4)
    · obtain ⟨rfl, rfl⟩ := hclip hcl
      norm_num
      omega
    · have hin2 := hin (by omega)
      interval_cases k <;> norm_num at hin2 ⊢ <;> omega
  · obtain ⟨k, e, hk, he0, he1, hc, hin, hclip⟩ := compand_nonneg (s * 2) (by omega) (by omega)
    obtain ⟨hd, hseg⟩ := decode_pos k e hk he0 he1
    refine ⟨_, hc, ?_⟩
    rw [hd, hseg, abs_le]
    by_cases hcl : 8159 ≤ s * 2 / 4
    · obtain ⟨rfl, rfl⟩ := hclip hcl
      norm_num
      omega
    · have hin2 := hin (by omega)
      interval_cases k <;> norm_num at hin2 ⊢ <;> omega

/-- Witness of `roundtrip_tracks_doubled` at `s = 1000`. -/
theorem roundtrip_tracks_doubled_witness :
    (-16384 : Int) ≤ 1000 ∧ (1000 : Int) ≤ 16383 ∧
      ∃ c, Snack_Lin2Mulaw 1000 = some c ∧
        |Snack_Mulaw2Lin c - 2 * 1000| ≤ (2 : Int) ^ (segmentOf c + 3) :=
  ⟨by decide, by decide, roundtrip_tracks_doubled 1000 (by decide) (by decide)⟩

/-- C2: the pre-scale does not saturate.  At `s = 20000` the doubled value
40000 is narrowed to `-25536`, and the encoder returns `0x06`, while the
later stages run on the clamped value `32767` give `0x80`. -/
theorem prescale_not_saturating :
    prescale 20000 = -25536 ∧ Snack_Lin2Mulaw 20000 = some 0x06 ∧
      compand (max (-32768) (min (2 * 20000) 32767)) = some 0x80 := by
  decide

/-- C3: the encoder maps the zero sample to `0xFF`, the decoder maps `0xFF`
to zero, and so the zero sample is returned unchanged by encoding followed
by decoding. -/
theorem silence_vectors :
    Snack_Lin2Mulaw 0 = some 0xFF ∧ Snack_Mulaw2Lin 0xFF = 0 ∧
      (Snack_Lin2Mulaw 0).map Snack_Mulaw2Lin = some 0 := by
  decide

/-- C4: the full-scale inputs are not clipped to the top segment.  For
`32767` the pre-scale yields `-2`, the segment search returns 0 and the code
is `0x7E`; for `-32768` the pre-scale yields 0, the segment search returns 0
and the code is `0xFF`. -/
theorem full_scale_codes :
    prescale 32767 = -2 ∧ search (signMagnitude (prescale 32767)).1 seg_uend 8 = some 0 ∧
      Snack_Lin2Mulaw 32767 = some 0x7E ∧
      prescale (-32768) = 0 ∧ search (signMagnitude (prescale (-32768))).1 seg_uend 8 = some 0 ∧
      Snack_Lin2Mulaw (-32768) = some 0xFF := by
  decide

/-- C5: every code in `[0, 255]` decodes to a value in `[-32124, 32124]`;
the lower end is the value of code `0x00` and the upper end the value of
code `0x80`. -/
theorem decoder_range (b : Int) (h0 : 0 ≤ b) (h1 : b ≤ 255) :
    -32124 ≤ Snack_Mulaw2Lin b ∧ Snack_Mulaw2Lin b ≤ 32124 ∧
      Snack_Mulaw2Lin 0x00 = -32124 ∧ Snack_Mulaw2Lin 0x80 = 32124 := by
  interval_cases b <;> decide

/-- Witness of `decoder_range` at code `0x37`. -/
theorem decoder_range_witness :
    (0 : Int) ≤ 0x37 ∧ (0x37 : Int) ≤ 255 ∧
      -32124 ≤ Snack_Mulaw2Lin 0x37 ∧ Snack_Mulaw2Lin 0x37 ≤ 32124 ∧
      Snack_Mulaw2Lin 0x00 = -32124 ∧ Snack_Mulaw2Lin 0x80 = 32124 :=
  ⟨by decide, by decide, decoder_range 0x37 (by decide) (by decide)⟩

/-- C6: the sign is not preserved for every sample.  The non-negative sample
20000 is encoded as `0x06`, whose bit 7 is clear, and decodes to the
negative value `-25980`. -/
theorem sign_lost_at_20000 :
    Snack_Lin2Mulaw 20000 = some 0x06 ∧ band 0x06 SIGN_BIT = 0 ∧
      Snack_Mulaw2Lin 0x06 = -25980 := by
  decide

/-- C7: the round trip is not monotonic over all samples.  Sample 16383
decodes to `32124` and the next sample 16384 decodes to `-32124`. -/
theorem roundtrip_drop_at_16384 :
    (Snack_Lin2Mulaw 16383).map Snack_Mulaw2Lin = some 32124 ∧
      (Snack_Lin2Mulaw 16384).map Snack_Mulaw2Lin = some (-32124) := by
  decide

/-- C8: segment numbers are not monotonic over the non-negative samples.
Sample 16383 is encoded in segment 7 and the larger sample 32767 in
segment 0. -/
theorem segment_drop_at_32767 :
    (Snack_Lin2Mulaw 16383).map segmentOf = some 7 ∧
      (Snack_Lin2Mulaw 32767).map segmentOf = some 0 := by
  decide

/-- C9: on a table of 8 thresholds `search val table 8` returns an index `r`
in `[0, 8]` such that `val` exceeds every threshold before `r` and, when
`r < 8`, `val` does not exceed threshold `r`.  So the result is the least
index whose threshold `val` does not exceed, and 8 when `val` exceeds all
eight thresholds. -/
theorem search_least (val : Int) (table : List Int) (h : table.length = 8) :
    ∃ r : Nat, search val table 8 = some (r : Int) ∧ r ≤ 8 ∧
      (∀ j, j < r → ∃ t, table[j]? = some t ∧ t < val) ∧
      (r < 8 → ∃ t, table[r]? = some t ∧ val ≤ t) := by
  obtain ⟨r, hr, hres, hlt, hle⟩ := searchLoop_scan val 8 table 8 0 h (by omega)
  refine ⟨r, ?_, hr, hlt, hle⟩
  unfold search
  have h8 : (8 : Int).toNat = 8 := rfl
  rw [h8]
  have h0 : ((0 : Nat) : Int) = 0 := rfl
  rw [h0] at hres
  rw [hres]
  by_cases hr8 : r = 8
  · simp [hr8]
  · simp [hr8]

/-- Witness of `search_least` on the µ-law table. -/
theorem search_least_witness :
    ∃ r : Nat, search 100 seg_uend 8 = some (r : Int) ∧ r ≤ 8 ∧
      (∀ j, j < r → ∃ t, seg_uend[j]? = some t ∧ t < 100) ∧
      (r < 8 → ∃ t, seg_uend[r]? = some t ∧ (100 : Int) ≤ t) :=
  search_least 100 seg_uend (by decide)

/-- C10, as stated, fails: code `0xBF` decodes to 1980, which is encoded as
`0xB0`, and that decodes to 3900. -/
theorem reencode_counterexample :
    Snack_Mulaw2Lin 0xBF = 1980 ∧ Snack_Lin2Mulaw 1980 = some 0xB0 ∧
      Snack_Mulaw2Lin 0xB0 = 3900 ∧
      (Snack_Lin2Mulaw (Snack_Mulaw2Lin 0xBF)).map Snack_Mulaw2Lin
        ≠ some (Snack_Mulaw2Lin 0xBF) := by
  decide

/-- C10, amended: for every code `b` in `[0, 255]`, encoding half of the
decoded sample gives a code that decodes to the same linear value. -/
theorem reencode_half (b : Int) (h0 : 0 ≤ b) (h1 : b ≤ 255) :
    (Snack_Lin2Mulaw (Snack_Mulaw2Lin b / 2)).map Snack_Mulaw2Lin
      = some (Snack_Mulaw2Lin b) := by
  interval_cases b <;> decide

/-- Witness of `reencode_half` at code `0xBF`. -/
theorem reencode_half_witness :
    (0 : Int) ≤ 0xBF ∧ (0xBF : Int) ≤ 255 ∧
      (Snack_Lin2Mulaw (Snack_Mulaw2Lin 0xBF / 2)).map Snack_Mulaw2Lin
        = some (Snack_Mulaw2Lin 0xBF) :=
  ⟨by decide, by decide, reencode_half 0xBF (by decide) (by decide)⟩

/-- C11: for an input file of `L ≥ 44` bytes with `2*(L-44)+36 < 2^32`,
mode 0 writes `44 + 2*(L-44)` bytes: the first four bytes and bytes 8 to 39
of the header template, the value `2*(L-44)+36` in the four bytes at offset
4, the value `2*(L-44)` in the four bytes at offset 40, and after offset 44
the two bytes of the decoded sample of each input byte after offset 44. -/
theorem decode_mode_sizes (input : List Int) (hL : 44 ≤ input.length)
    (hfit : 2 * (input.length - 44) + 36 < 4294967296) :
    (mainDecode input).length = 44 + 2 * (input.length - 44) ∧
      (mainDecode input).take 4 = wav_header_u_law_to_pcm.take 4 ∧
      ((mainDecode input).drop 8).take 32 = (wav_header_u_law_to_pcm.drop 8).take 32 ∧
      (mainDecode input).drop 44
        = (input.drop 44).flatMap (fun b => bytesOfShort (Snack_Mulaw2Lin b)) ∧
      uint32At (mainDecode input) 40 = ((2 * (input.length - 44) : Nat) : Int) ∧
      uint32At (mainDecode input) 4 = ((2 * (input.length - 44) + 36 : Nat) : Int) := by
  have hh : wav_header_u_law_to_pcm.length = 44 := rfl
  have h4 : (wav_header_u_law_to_pcm.take 4).length = 4 := rfl
  have h32 : ((wav_header_u_law_to_pcm.drop 8).take 32).length = 32 := rfl
  rw [mainDecode_eq input hL hfit]
  refine ⟨?_, ?_, ?_, ?_, ?_, ?_⟩
  · simp only [List.length_append, h4, h32, bytesOfUInt32_length,
      bytesOfShort_flatMap_length, List.length_drop]
    omega
  · exact List.take_left' h4
  · rw [← List.append_assoc, List.drop_left' (by simp [h4, bytesOfUInt32_length])]
    exact List.take_left' h32
  · rw [← List.append_assoc, ← List.append_assoc, ← List.append_assoc,
      List.drop_left' (by simp [h4, h32, bytesOfUInt32_length])]
  · rw [← List.append_assoc, ← List.append_assoc]
    exact uint32At_bytes _ (by omega) (by omega) _ _ 40
      (by simp [h4, h32, bytesOfUInt32_length])
  · exact uint32At_bytes _ (by omega) (by omega) _ _ 4 h4

/-- Witness of `decode_mode_sizes` on a 46-byte input file. -/
theorem decode_mode_sizes_witness :
    (mainDecode (List.replicate 44 0 ++ [0xFF, 0x00])).length
        = 44 + 2 * ((List.replicate 44 0 ++ [0xFF, 0x00] : List Int).length - 44) ∧
      (mainDecode (List.replicate 44 0 ++ [0xFF, 0x00])).take 4
        = wav_header_u_law_to_pcm.take 4 ∧
      ((mainDecode (List.replicate 44 0 ++ [0xFF, 0x00])).drop 8).take 32
        = (wav_header_u_law_to_pcm.drop 8).take 32 ∧
      (mainDecode (List.replicate 44 0 ++ [0xFF, 0x00])).drop 44
        = ((List.replicate 44 0 ++ [0xFF, 0x00] : List Int).drop 44).flatMap
            (fun b => bytesOfShort (Snack_Mulaw2Lin b)) ∧
      uint32At (mainDecode (List.replicate 44 0 ++ [0xFF, 0x00])) 40
        = ((2 * ((List.replicate 44 0 ++ [0xFF, 0x00] : List Int).length - 44) : Nat) : Int) ∧
      uint32At (mainDecode (List.replicate 44 0 ++ [0xFF, 0x00])) 4
        = ((2 * ((List.replicate 44 0 ++ [0xFF, 0x00] : List Int).length - 44) + 36 : Nat)
            : Int) :=
  decode_mode_sizes (List.replicate 44 0 ++ [0xFF, 0x00]) (by decide) (by decide)

/-- C12: the data written by mode 1 does not have the size the header
records.  For an input file of 46 bytes the output file has 46 bytes, two of
them data after the 44-byte header, while the field at offset 40 holds
`(46 - 44) / 2 = 1`. -/
theorem encode_mode_size_mismatch :
    (mainEncode (List.replicate 44 0 ++ [0x10, 0x20])).map List.length = some 46 ∧
      (mainEncode (List.replicate 44 0 ++ [0x10, 0x20])).map
        (fun out => (out.drop 44).length) = some 2 ∧
      (mainEncode (List.replicate 44 0 ++ [0x10, 0x20])).map
        (fun out => uint32At out 40) = some 1 := by
  decide

/-- C13: both header templates have 44 bytes; they differ exactly at the
offsets 20 (audio format 1 against 7), 28 and 29 (byte rate 16000 against
8000), 32 (block align 2 against 1) and 34 (bits per sample 16 against 8);
the size fields at offsets 4 and 40 are zero in both. -/
theorem header_templates :
    wav_header_u_law_to_pcm.length = 44 ∧ wav_header_pcm_to_u_law.length = 44 ∧
      (List.range 44).filter
          (fun i => wav_header_u_law_to_pcm.getD i 0 ≠ wav_header_pcm_to_u_law.getD i 0)
        = [20, 28, 29, 32, 34] ∧
      wav_header_u_law_to_pcm.getD 20 0 = 1 ∧ wav_header_pcm_to_u_law.getD 20 0 = 7 ∧
      wav_header_u_law_to_pcm.getD 21 0 = 0 ∧ wav_header_pcm_to_u_law.getD 21 0 = 0 ∧
      uint32At wav_header_u_law_to_pcm 28 = 8000 * 2 ∧
      uint32At wav_header_pcm_to_u_law 28 = 8000 ∧
      wav_header_u_law_to_pcm.getD 32 0 = 2 ∧ wav_header_pcm_to_u_law.getD 32 0 = 1 ∧
      wav_header_u_law_to_pcm.getD 33 0 = 0 ∧ wav_header_pcm_to_u_law.getD 33 0 = 0 ∧
      wav_header_u_law_to_pcm.getD 34 0 = 16 ∧ wav_header_pcm_to_u_law.getD 34 0 = 8 ∧
      wav_header_u_law_to_pcm.getD 35 0 = 0 ∧ wav_header_pcm_to_u_law.getD 35 0 = 0 ∧
      uint32At wav_header_u_law_to_pcm 4 = 0 ∧ uint32At wav_header_pcm_to_u_law 4 = 0 ∧
      uint32At wav_header_u_law_to_pcm 40 = 0 ∧ uint32At wav_header_pcm_to_u_law 40 = 0 := by
  decide

/-- C14: for every code `b` in `[0, 255]`, with `c = 255 - b`, `q = c mod 16`,
`k = (c div 16) mod 8` and `v = (8*q + 132) * 2^k`, the decoder returns
`132 - v` when `c ≥ 128` and `v - 132` otherwise; `v` is at most 32256, and
the shifted intermediate `t` equals `v` before it is stored in a `short`. -/
theorem decoder_formula (b : Int) (h0 : 0 ≤ b) (h1 : b ≤ 255) :
    Snack_Mulaw2Lin b
        = (if 255 - b ≥ 128
            then 132 - (8 * ((255 - b) % 16) + 132) * 2 ^ (((255 - b) / 16) % 8).toNat
            else (8 * ((255 - b) % 16) + 132) * 2 ^ (((255 - b) / 16) % 8).toNat - 132) ∧
      (8 * ((255 - b) % 16) + 132) * 2 ^ (((255 - b) / 16) % 8).toNat ≤ 32256 ∧
      shl (toShort (shl (band (toUChar (bnot b)) QUANT_MASK) 3 + BIAS))
          (bits32 (band (toUChar (bnot b)) SEG_MASK) >>> SEG_SHIFT)
        = (8 * ((255 - b) % 16) + 132) * 2 ^ (((255 - b) / 16) % 8).toNat := by
  interval_cases b <;> decide

/-- Witness of `decoder_formula` at code `0x37`. -/
theorem decoder_formula_witness :
    Snack_Mulaw2Lin 0x37
        = (if 255 - (0x37 : Int) ≥ 128
            then 132 - (8 * ((255 - (0x37 : Int)) % 16) + 132)
              * 2 ^ (((255 - (0x37 : Int)) / 16) % 8).toNat
            else (8 * ((255 - (0x37 : Int)) % 16) + 132)
              * 2 ^ (((255 - (0x37 : Int)) / 16) % 8).toNat - 132) ∧
      (8 * ((255 - (0x37 : Int)) % 16) + 132) * 2 ^ (((255 - (0x37 : Int)) / 16) % 8).toNat
        ≤ 32256 ∧
      shl (toShort (shl (band (toUChar (bnot 0x37)) QUANT_MASK) 3 + BIAS))
          (bits32 (band (toUChar (bnot 0x37)) SEG_MASK) >>> SEG_SHIFT)
        = (8 * ((255 - (0x37 : Int)) % 16) + 132)
          * 2 ^ (((255 - (0x37 : Int)) / 16) % 8).toNat :=
  decoder_formula 0x37 (by decide) (by decide)

/-- C15, as stated, fails: for the sample 16383 the magnitude passed to
`search` is `8192 = 0x2000`, more than the last threshold `0x1FFF`. -/
theorem biased_magnitude_counterexample :
    (signMagnitude (prescale 16383)).1 = 0x2000 ∧
      ¬ ((signMagnitude (prescale 16383)).1 ≤ 0x1FFF) := by
  decide

/-- C15, amended: for every 16-bit sample `s` the clipped and biased
magnitude passed to `search` is non-negative and at most `0x2000`. -/
theorem biased_magnitude_range (s : Int) (_h1 : -32768 ≤ s) (_h2 : s ≤ 32767) :
    0 ≤ (signMagnitude (prescale s)).1 ∧ (signMagnitude (prescale s)).1 ≤ 0x2000 := by
  obtain ⟨hx1, hx2⟩ := toShort_mem (s * 2)
  rw [prescale_eq_wrap]
  by_cases hneg : toShort (s * 2) < 0
  · rw [signMagnitude_neg _ hx1 hneg]
    simp only []
    have hm := min_le_right (-(toShort (s * 2) / 4)) 8159
    have hl : 0 ≤ min (-(toShort (s * 2) / 4)) 8159 := le_min (by omega) (by norm_num)
    omega
  · rw [signMagnitude_nonneg _ (by omega) hx2]
    simp only []
    have hm := min_le_right (toShort (s * 2) / 4) 8159
    have hl : 0 ≤ min (toShort (s * 2) / 4) 8159 := le_min (by omega) (by norm_num)
    omega

/-- Witness of `biased_magnitude_range` at the sample 16383. -/
theorem biased_magnitude_range_witness :
    0 ≤ (signMagnitude (prescale 16383)).1 ∧ (signMagnitude (prescale 16383)).1 ≤ 0x2000 :=
  biased_magnitude_range 16383 (by decide) (by decide)

/-- C16: every byte `v` in `[0, 255]`, taken as a sample, is encoded as a
code in `[0xDB, 0xFF]` with bit 7 set and segment number at most 2; and for
an input file of such bytes mode 1 returns a file whose bytes after offset 44
are, one for one, the codes of the input bytes after offset 44, each of them
in that range. -/
theorem encode_mode_codes (input : List Int) (hb : ∀ v ∈ input, 0 ≤ v ∧ v ≤ 255) :
    (∀ v : Int, 0 ≤ v → v ≤ 255 →
      ∃ c, Snack_Lin2Mulaw v = some c ∧ 0xDB ≤ c ∧ c ≤ 0xFF ∧ band c SIGN_BIT ≠ 0 ∧
        segmentOf c ≤ 2) ∧
    ∃ out, mainEncode input = some out ∧
      List.Forall₂
        (fun v c => Snack_Lin2Mulaw v = some c ∧ 0xDB ≤ c ∧ c ≤ 0xFF ∧ band c SIGN_BIT ≠ 0 ∧
          segmentOf c ≤ 2)
        (input.drop 44) (out.drop 44) := by
  have h4 : (wav_header_pcm_to_u_law.take 4).length = 4 := rfl
  have h32 : ((wav_header_pcm_to_u_law.drop 8).take 32).length = 32 := rfl
  refine ⟨encode_byte, _, mainEncode_eq input, ?_⟩
  rw [← List.append_assoc, ← List.append_assoc, ← List.append_assoc,
    List.drop_left' (by simp [h4, h32, bytesOfUInt32_length])]
  rw [List.forall₂_map_right_iff, List.forall₂_same]
  intro v hv
  obtain ⟨hv0, hv1⟩ := hb v (List.mem_of_mem_drop hv)
  obtain ⟨c, hc, hr⟩ := encode_byte v hv0 hv1
  rw [hc]
  exact ⟨rfl, hr⟩

/-- Witness of `encode_mode_codes` on a 46-byte input file. -/
theorem encode_mode_codes_witness :
    (∀ v : Int, 0 ≤ v → v ≤ 255 →
      ∃ c, Snack_Lin2Mulaw v = some c ∧ 0xDB ≤ c ∧ c ≤ 0xFF ∧ band c SIGN_BIT ≠ 0 ∧
        segmentOf c ≤ 2) ∧
    ∃ out, mainEncode (List.replicate 44 0 ++ [0x10, 0x20]) = some out ∧
      List.Forall₂
        (fun v c => Snack_Lin2Mulaw v = some c ∧ 0xDB ≤ c ∧ c ≤ 0xFF ∧ band c SIGN_BIT ≠ 0 ∧
          segmentOf c ≤ 2)
        ((List.replicate 44 0 ++ [0x10, 0x20] : List Int).drop 44) (out.drop 44) :=
  encode_mode_codes (List.replicate 44 0 ++ [0x10, 0x20]) (by decide)

/-- C17: for every sample `s` with `-16384 ≤ s ≤ 16383` the encoder returns a
code whose decoded value is within 644 of `2*s`, and within `2^(k+2) + 3` of
`2*s` when `|s| ≤ 16316`, where `k` is the segment number of the code. -/
theorem roundtrip_error_bounds (s : Int) (h1 : -16384 ≤ s) (h2 : s ≤ 16383) :
    ∃ c, Snack_Lin2Mulaw s = some c ∧ |Snack_Mulaw2Lin c - 2 * s| ≤ 644 ∧
      (|s| ≤ 16316 → |Snack_Mulaw2Lin c - 2 * s| ≤ (2 : Int) ^ (segmentOf c + 2) + 3) := by
  by_cases hneg : s < 0
  · obtain ⟨k, e, hk, he, hc, hd, hseg, hin, hclip⟩ := encode_neg s h1 hneg
    refine ⟨_, hc, ?_, ?_⟩
    · rw [hd, abs_le]
      by_cases hcl : 8159 ≤ -(s / 2)
      · obtain ⟨rfl, rfl⟩ := hclip hcl
        norm_num
        omega
      · have hin2 := hin (by omega)
        interval_cases k <;> norm_num at hin2 ⊢ <;> omega
    · intro hs
      rw [abs_le] at hs
      have hin2 := hin (by omega)
      rw [hd, hseg, abs_le]
      interval_cases k <;> norm_num at hin2 ⊢ <;> omega
  · obtain ⟨k, e, hk, he, hc, hd, hseg, hin, hclip⟩ := encode_nonneg s (by omega) h2
    refine ⟨_, hc, ?_, ?_⟩
    · rw [hd, abs_le]
      by_cases hcl : 8159 ≤ s / 2
      · obtain ⟨rfl, rfl⟩ := hclip hcl
        norm_num
        omega
      · have hin2 := hin (by omega)
        interval_cases k <;> norm_num at hin2 ⊢ <;> omega
    · intro hs
      rw [abs_le] at hs
      have hin2 := hin (by omega)
      rw [hd, hseg, abs_le]
      interval_cases k <;> norm_num at hin2 ⊢ <;> omega

/-- Witness of `roundtrip_error_bounds` at `s = -5000`. -/
theorem roundtrip_error_bounds_witness :
    ∃ c, Snack_Lin2Mulaw (-5000) = some c ∧ |Snack_Mulaw2Lin c - 2 * (-5000)| ≤ 644 ∧
      (|(-5000 : Int)| ≤ 16316 →
        |Snack_Mulaw2Lin c - 2 * (-5000)| ≤ (2 : Int) ^ (segmentOf c + 2) + 3) :=
  roundtrip_error_bounds (-5000) (by decide) (by decide)

/-- C18: for every code `b` in `[0, 255]` the decoded value is a multiple of
4, and encoding half of it returns `b` when `b` is not `0x7F` and `0xFF` when
`b` is `0x7F`. -/
theorem gain_compensated_inverse (b : Int) (h0 : 0 ≤ b) (h1 : b ≤ 255) :
    Snack_Mulaw2Lin b % 4 = 0 ∧
      (b ≠ 0x7F → Snack_Lin2Mulaw (Snack_Mulaw2Lin b / 2) = some b) ∧
      (b = 0x7F → Snack_Lin2Mulaw (Snack_Mulaw2Lin b / 2) = some 0xFF) := by
  have hh := encode_half_decode b h0 h1
  refine ⟨?_, ?_, ?_⟩
  · interval_cases b <;> decide
  · intro hb
    rw [hh, if_neg hb]
  · intro hb
    rw [hh, if_pos hb]

/-- Witness of `gain_compensated_inverse` at code `0x7F`. -/
theorem gain_compensated_inverse_witness :
    Snack_Mulaw2Lin 0x7F % 4 = 0 ∧
      ((0x7F : Int) ≠ 0x7F → Snack_Lin2Mulaw (Snack_Mulaw2Lin 0x7F / 2) = some 0x7F) ∧
      ((0x7F : Int) = 0x7F → Snack_Lin2Mulaw (Snack_Mulaw2Lin 0x7F / 2) = some 0xFF) :=
  gain_compensated_inverse 0x7F (by decide) (by decide)

/-- C19: codes `0x7F` and `0xFF` both decode to 0; two different codes in
`[0, 255]` other than that pair decode to different values; and flipping bit
7 of a code negates its decoded value. -/
theorem decoder_collision (b1 b2 : Int) (h10 : 0 ≤ b1) (h11 : b1 ≤ 255) (h20 : 0 ≤ b2)
    (h21 : b2 ≤ 255) :
    Snack_Mulaw2Lin 0x7F = 0 ∧ Snack_Mulaw2Lin 0xFF = 0 ∧
      (b1 ≠ b2 → ¬ (b1 = 0x7F ∧ b2 = 0xFF) → ¬ (b1 = 0xFF ∧ b2 = 0x7F) →
        Snack_Mulaw2Lin b1 ≠ Snack_Mulaw2Lin b2) ∧
      Snack_Mulaw2Lin (bxor b1 0x80) = -Snack_Mulaw2Lin b1 := by
  refine ⟨by decide, by decide, ?_, ?_⟩
  · intro hne hp hq heq
    have e1 := encode_half_decode b1 h10 h11
    have e2 := encode_half_decode b2 h20 h21
    rw [heq, e2] at e1
    have e3 := Option.some.inj e1
    split_ifs at e3 <;> omega
  · interval_cases b1 <;> decide

/-- Witness of `decoder_collision` at the codes `0x7F` and `0x80`. -/
theorem decoder_collision_witness :
    Snack_Mulaw2Lin 0x7F = 0 ∧ Snack_Mulaw2Lin 0xFF = 0 ∧
      ((0x7F : Int) ≠ 0x80 → ¬ ((0x7F : Int) = 0x7F ∧ (0x80 : Int) = 0xFF) →
        ¬ ((0x7F : Int) = 0xFF ∧ (0x80 : Int) = 0x7F) →
        Snack_Mulaw2Lin 0x7F ≠ Snack_Mulaw2Lin 0x80) ∧
      Snack_Mulaw2Lin (bxor 0x7F 0x80) = -Snack_Mulaw2Lin 0x7F :=
  decoder_collision 0x7F 0x80 (by decide) (by decide) (by decide) (by decide)

end G711
